import Mathlib

/-!
Verification of the rherkin feature-file engine.

The definitions below are a shallow embedding of the repository's source:
* `src/ast.rs`       — the AST (`Feature`, `TestCase`, `Scenario`, `TestResult`)
  and the evaluation engine (`Feature::eval`, `Scenario::eval`).
* `src/parser.rs`    — the grammar (`scenario_block`, `scenario`, `feature`),
  built on the `combine` parser-combinator library.
* `src/parse_utils.rs` — line primitives (`non_newline`, `eol`, `until_eol`,
  `line_block`).

Rust's `combine` combinators distinguish failures that consumed input from
failures that did not (only the latter can be recovered by `choice`/`optional`/
`many`/`sep_by`).  The parser model below therefore tracks a `consumed` flag
faithfully.  A mutable `&mut C` step (`Step::eval(&self, &mut C) -> bool`)
becomes a pure function `C → Bool × C`.
-/

namespace Rherkin

/-! ## AST and evaluation engine (src/ast.rs) -/

/-- `trait Step<C> { fn eval(&self, &mut C) -> bool; }`: a step mutates the
context and reports pass/fail; embedded as a function returning the flag and
the mutated context. -/
def Step (C : Type) := C → Bool × C

/-- `struct TestResult<C>` of src/ast.rs. -/
structure TestResult (C : Type) where
  test_case_name : String
  pass : Bool
  context : C

/-- `struct Scenario<TC>` of src/ast.rs. -/
structure Scenario (C : Type) where
  name : Option String
  steps : List (Step C)

/-- `enum TestCase<C> { Background(Scenario<C>), Scenario(Scenario<C>) }`. -/
inductive TestCase (C : Type) where
  | background (s : Scenario C)
  | scenario (s : Scenario C)

/-- `struct Feature<C>` of src/ast.rs. -/
structure Feature (C : Type) where
  name : String
  comment : String
  background : Option (TestCase C)
  test_cases : List (TestCase C)

variable {C : Type}

/-- The step loop of `Scenario::eval`: run each step in order with the
threaded context; stop at the first step returning `false`, keeping that
step's mutation. -/
def evalSteps : List (Step C) → C → Bool × C
  | [], ctx => (true, ctx)
  | s :: rest, ctx =>
    match s ctx with
    | (true, ctx2) => evalSteps rest ctx2
    | (false, ctx2) => (false, ctx2)

/-- `Scenario::eval` of src/ast.rs: run the loop, then report the scenario's
name (or `""` when unnamed), the pass flag, and the final context. -/
def Scenario.eval (sc : Scenario C) (ctx : C) : TestResult C :=
  match evalSteps sc.steps ctx with
  | (pass, ctx2) =>
    { test_case_name :=
        match sc.name with
        | some s => s
        | none => ""
      pass := pass
      context := ctx2 }

/-- `TestCase::eval` of src/ast.rs. -/
def TestCase.eval : TestCase C → C → TestResult C
  | .background s, ctx => s.eval ctx
  | .scenario s, ctx => s.eval ctx

/-- The body of the `for tc in self.test_cases` loop of `Feature::eval`:
build a fresh context, run the background (when present) against it, and on
background failure report `"<Background>"` with the partially mutated
context; otherwise run the test case from the background's final context. -/
def evalCase (bg : Option (TestCase C)) (cnew : C) (tc : TestCase C) : TestResult C :=
  match bg with
  | some (.background b) =>
    match Scenario.eval b cnew with
    | ⟨_, false, c⟩ => ⟨"<Background>", false, c⟩
    | ⟨_, true, c⟩ => tc.eval c
  | _ => tc.eval cnew

/-- The `for` loop of `Feature::eval`, pushing one result per test case. -/
def evalCases (bg : Option (TestCase C)) (cnew : C) : List (TestCase C) → List (TestResult C)
  | [] => []
  | tc :: rest => evalCase bg cnew tc :: evalCases bg cnew rest

/-- `Feature::eval` of src/ast.rs.  `cnew` is the (deterministic) value the
zero-argument factory `C::new()` produces. -/
def Feature.eval (f : Feature C) (cnew : C) : List (TestResult C) :=
  evalCases f.background cnew f.test_cases

/-! ## A concrete step universe mirroring the test fixtures of src/parser.rs
(`SampleTestContext` / `SampleStep`): the context records the numbers of the
steps executed so far. -/

/-- Context of the sample fixtures: the list of executed step numbers. -/
abbrev Ctx := List Nat

/-- A passing sample step: record `n`, report success. -/
def pushStep (n : Nat) : Step Ctx := fun ctx => (true, ctx ++ [n])

/-- A failing sample step: record `n`, report failure (its mutation must be
kept in the result). -/
def failStep (n : Nat) : Step Ctx := fun ctx => (false, ctx ++ [n])

/-! ## Helper lemmas about the evaluation engine -/

theorem evalCases_length (bg : Option (TestCase C)) (cnew : C) (tcs : List (TestCase C)) :
    (evalCases bg cnew tcs).length = tcs.length := by
  induction tcs with
  | nil => rfl
  | cons tc rest ih => simp [evalCases, ih]

theorem evalSteps_append (pre post : List (Step C)) (ctx : C) :
    evalSteps (pre ++ post) ctx =
      match evalSteps pre ctx with
      | (true, c) => evalSteps post c
      | (false, c) => (false, c) := by
  induction pre generalizing ctx with
  | nil => rfl
  | cons s rest ih =>
    have hl : evalSteps ((s :: rest) ++ post) ctx = (match s ctx with
      | (true, c2) => evalSteps (rest ++ post) c2
      | (false, c2) => ((false, c2) : Bool × C)) := rfl
    have hr2 : evalSteps (s :: rest) ctx = (match s ctx with
      | (true, c2) => evalSteps rest c2
      | (false, c2) => ((false, c2) : Bool × C)) := rfl
    rw [hl, hr2]
    rcases h : s ctx with ⟨b, ctx2⟩
    cases b
    · rfl
    · exact ih ctx2

theorem evalCases_get? (bg : Option (TestCase C)) (cnew : C) (tcs : List (TestCase C)) (i : Nat) :
    (evalCases bg cnew tcs).get? i = (tcs.get? i).map (evalCase bg cnew) := by
  induction tcs generalizing i with
  | nil => rfl
  | cons tc rest ih =>
    cases i with
    | zero => rfl
    | succ j => simpa [evalCases] using ih j

/-- "No step returned false along the run": the steps evaluate in sequence,
each reporting `true`, threading the context from `c` to `c2`. -/
inductive StepsAllPass : List (Step C) → C → C → Prop where
  | nil (c : C) : StepsAllPass [] c c
  | cons {s : Step C} {rest : List (Step C)} {c c1 c2 : C} :
      s c = (true, c1) → StepsAllPass rest c1 c2 → StepsAllPass (s :: rest) c c2

theorem evalSteps_of_allPass {steps : List (Step C)} {c c2 : C}
    (h : StepsAllPass steps c c2) : evalSteps steps c = (true, c2) := by
  induction h with
  | nil => rfl
  | cons hs _ ih => unfold evalSteps; rw [hs]; exact ih

theorem allPass_of_evalSteps {steps : List (Step C)} {c c2 : C}
    (h : evalSteps steps c = (true, c2)) : StepsAllPass steps c c2 := by
  induction steps generalizing c with
  | nil =>
    have h2 : (true, c) = ((true, c2) : Bool × C) := h
    injection h2 with _ h3
    subst h3
    exact StepsAllPass.nil c
  | cons s rest ih =>
    unfold evalSteps at h
    rcases hs : s c with ⟨b, c1⟩
    rw [hs] at h
    cases b
    · simp at h
    · exact .cons hs (ih h)

/-- Reduced form of `Scenario.eval` on an explicit scenario literal. -/
theorem scenario_eval_eq (nm : Option String) (steps : List (Step C)) (ctx : C) :
    Scenario.eval ⟨nm, steps⟩ ctx =
      ⟨nm.getD "", (evalSteps steps ctx).1, (evalSteps steps ctx).2⟩ := by
  show (match evalSteps steps ctx with
    | (pass, ctx2) =>
      ({ test_case_name := match nm with | some s => s | none => "",
         pass := pass, context := ctx2 } : TestResult C)) = _
  rcases evalSteps steps ctx with ⟨b, c2⟩
  cases nm <;> rfl

/-- Reduced form of `evalCase` when the background is present. -/
theorem evalCase_background (b : Scenario C) (cnew : C) (tc : TestCase C) :
    evalCase (some (.background b)) cnew tc =
      if (Scenario.eval b cnew).pass then tc.eval (Scenario.eval b cnew).context
      else ⟨"<Background>", false, (Scenario.eval b cnew).context⟩ := by
  show (match Scenario.eval b cnew with
    | ⟨_, false, c⟩ => (⟨"<Background>", false, c⟩ : TestResult C)
    | ⟨_, true, c⟩ => tc.eval c) = _
  rcases Scenario.eval b cnew with ⟨n, p, c⟩
  cases p <;> rfl

/-! ## Claim theorems about the evaluation engine -/

/-- C1: `Feature::eval` returns exactly one `TestResult` per element of
`test_cases`, in order, independent of background presence and of any
step's outcome (the universal quantification covers every feature value,
hence every background and every step behaviour). -/
theorem C1_one_result_per_scenario (C : Type) (f : Feature C) (cnew : C) :
    (Feature.eval f cnew).length = f.test_cases.length :=
  evalCases_length f.background cnew f.test_cases

/-- C2: when the background's step sequence fails against the fresh context,
the emitted result for the current scenario is named exactly `"<Background>"`,
has `pass = false` and carries the background's partially-mutated context; it
does not depend on the scenario `tc` itself (so none of `tc`'s steps runs),
and evaluation continues with the remaining scenarios. -/
theorem C2_background_failure (C : Type) (nm cm : String) (b : Scenario C) (cnew : C)
    (tc : TestCase C) (rest : List (TestCase C))
    (h : (Scenario.eval b cnew).pass = false) :
    Feature.eval ⟨nm, cm, some (.background b), tc :: rest⟩ cnew =
      { test_case_name := "<Background>", pass := false,
        context := (Scenario.eval b cnew).context } ::
      Feature.eval ⟨nm, cm, some (.background b), rest⟩ cnew := by
  show evalCase (some (.background b)) cnew tc :: evalCases (some (.background b)) cnew rest = _
  rw [evalCase_background, h]
  rfl

/-- C2 witness: an always-failing one-step background makes each of two
scenarios report `"<Background>"`, `pass = false`, with just the background
step's mutation; the scenarios' own steps never record anything. -/
theorem C2_background_failure_witness :
    Feature.eval ⟨"f", "", some (.background ⟨some "bg", [failStep 9]⟩),
        [.scenario ⟨some "A", [pushStep 1]⟩, .scenario ⟨some "B", [pushStep 2]⟩]⟩ ([] : Ctx) =
      { test_case_name := "<Background>", pass := false, context := [9] } ::
      Feature.eval ⟨"f", "", some (.background ⟨some "bg", [failStep 9]⟩),
        [.scenario ⟨some "B", [pushStep 2]⟩]⟩ ([] : Ctx) :=
  C2_background_failure Ctx "f" "" ⟨some "bg", [failStep 9]⟩ []
    (.scenario ⟨some "A", [pushStep 1]⟩) [.scenario ⟨some "B", [pushStep 2]⟩] (by decide)

/-- C3: `Scenario::eval` runs the steps strictly in sequence order and
(1) stops at the first step returning `false` — the result does not depend on
the steps after the failing one, reports `pass = false`, and keeps the failing
step's mutation; (2) when every step passes the result is `pass = true` with
the fully threaded context; (3) conversely `pass = true` only happens when
every step passed in sequence. -/
theorem C3_scenario_sequential :
    (∀ (C : Type) (nm : Option String) (pre : List (Step C)) (s : Step C)
        (post : List (Step C)) (ctx c1 c2 : C),
        evalSteps pre ctx = (true, c1) → s c1 = (false, c2) →
        Scenario.eval ⟨nm, pre ++ s :: post⟩ ctx =
          { test_case_name := nm.getD "", pass := false, context := c2 }) ∧
    (∀ (C : Type) (nm : Option String) (steps : List (Step C)) (ctx c2 : C),
        StepsAllPass steps ctx c2 →
        Scenario.eval ⟨nm, steps⟩ ctx =
          { test_case_name := nm.getD "", pass := true, context := c2 }) ∧
    (∀ (C : Type) (nm : Option String) (steps : List (Step C)) (ctx : C),
        (Scenario.eval ⟨nm, steps⟩ ctx).pass = true →
        StepsAllPass steps ctx (Scenario.eval ⟨nm, steps⟩ ctx).context) := by
  refine ⟨?_, ?_, ?_⟩
  · intro C nm pre s post ctx c1 c2 hpre hs
    have hsteps : evalSteps (pre ++ s :: post) ctx = (false, c2) := by
      rw [evalSteps_append, hpre]
      show evalSteps (s :: post) c1 = _
      have : evalSteps (s :: post) c1 = (match s c1 with
        | (true, c3) => evalSteps post c3
        | (false, c3) => ((false, c3) : Bool × C)) := rfl
      rw [this, hs]
    rw [scenario_eval_eq, hsteps]
  · intro C nm steps ctx c2 h
    rw [scenario_eval_eq, evalSteps_of_allPass h]
  · intro C nm steps ctx h
    rw [scenario_eval_eq] at h ⊢
    rcases he : evalSteps steps ctx with ⟨b, c2⟩
    rw [he] at h
    cases b
    · simp at h
    · exact allPass_of_evalSteps he

/-- C3 witness: with steps `[pass 1, fail 2, pass 3]` the scenario stops at
the failing second step, keeps its mutation, and never runs the third step. -/
theorem C3_scenario_sequential_witness :
    Scenario.eval ⟨some "s", [pushStep 1] ++ failStep 2 :: [pushStep 3]⟩ ([] : Ctx) =
      { test_case_name := "s", pass := false, context := [1, 2] } :=
  C3_scenario_sequential.1 Ctx (some "s") [pushStep 1] (failStep 2) [pushStep 3]
    [] [1] [1, 2] (by decide) (by decide)

/-- C5: (1) each scenario's result is computed by `evalCase` from the fresh
factory value `cnew` and that scenario alone; (2) consequently two features
with the same background agree on the `i`-th result whenever they agree on
the `i`-th test case — no other scenario's mutations or failure can leak in. -/
theorem C5_fresh_context_isolation :
    (∀ (C : Type) (f : Feature C) (cnew : C) (i : Nat),
        (Feature.eval f cnew).get? i = (f.test_cases.get? i).map (evalCase f.background cnew)) ∧
    (∀ (C : Type) (f1 f2 : Feature C) (cnew : C) (i : Nat),
        f1.background = f2.background →
        f1.test_cases.get? i = f2.test_cases.get? i →
        (Feature.eval f1 cnew).get? i = (Feature.eval f2 cnew).get? i) := by
  constructor
  · intro C f cnew i
    exact evalCases_get? f.background cnew f.test_cases i
  · intro C f1 f2 cnew i hbg htc
    rw [show Feature.eval f1 cnew = evalCases f1.background cnew f1.test_cases from rfl,
      show Feature.eval f2 cnew = evalCases f2.background cnew f2.test_cases from rfl,
      evalCases_get?, evalCases_get?, hbg, htc]

/-- C5 witness: replacing the first scenario (even by a failing one) leaves
the second scenario's result unchanged. -/
theorem C5_fresh_context_isolation_witness :
    (Feature.eval ⟨"f", "", none,
        [.scenario ⟨some "A", [pushStep 1]⟩, .scenario ⟨some "B", [pushStep 2]⟩]⟩ ([] : Ctx)).get? 1 =
    (Feature.eval ⟨"f", "", none,
        [.scenario ⟨some "X", [failStep 7]⟩, .scenario ⟨some "B", [pushStep 2]⟩]⟩ ([] : Ctx)).get? 1 :=
  C5_fresh_context_isolation.2 Ctx
    ⟨"f", "", none, [.scenario ⟨some "A", [pushStep 1]⟩, .scenario ⟨some "B", [pushStep 2]⟩]⟩
    ⟨"f", "", none, [.scenario ⟨some "X", [failStep 7]⟩, .scenario ⟨some "B", [pushStep 2]⟩]⟩
    [] 1 rfl rfl

/-- C7: evaluation is a pure function of the parsed AST and the factory
value, so two runs of `Feature::eval` on the same AST (with the deterministic
steps embedded in it and a deterministic factory) yield identical result
sequences. -/
theorem C7_deterministic (C : Type) (f : Feature C) (cnew : C)
    (r1 r2 : List (TestResult C))
    (h1 : r1 = Feature.eval f cnew) (h2 : r2 = Feature.eval f cnew) : r1 = r2 := by
  rw [h1, h2]

/-- C7 witness: two runs on a concrete feature coincide. -/
theorem C7_deterministic_witness :
    Feature.eval ⟨"f", "", none, [.scenario ⟨some "A", [pushStep 1]⟩]⟩ ([] : Ctx) =
      Feature.eval ⟨"f", "", none, [.scenario ⟨some "A", [pushStep 1]⟩]⟩ ([] : Ctx) :=
  C7_deterministic Ctx ⟨"f", "", none, [.scenario ⟨some "A", [pushStep 1]⟩]⟩ [] _ _ rfl rfl

/-! ## Parser combinator model (the fragment of `combine` the grammar uses)

`combine` parsers return one of four outcomes: ok/err crossed with whether
input was consumed.  `choice`, `optional`, `many` and `sep_by` recover only
from errors that consumed nothing. -/

/-- Outcome of a parser: value, remaining input and consumed flag, or an
error with a consumed flag. -/
inductive PResult (α : Type) where
  | ok (a : α) (rest : List Char) (consumed : Bool)
  | err (consumed : Bool)

/-- A parser over a stream of characters. -/
def Parser (α : Type) := List Char → PResult α

/-- Mark a result as additionally consuming when `c = true` (used to compose
consumed flags in sequences). -/
def mapConsumed (c : Bool) : PResult α → PResult α
  | .ok a r c2 => .ok a r (c || c2)
  | .err c2 => .err (c || c2)

/-- A parser that consumes nothing and yields `a`. -/
def ppure (a : α) : Parser α := fun s => .ok a s false

/-- Sequencing: run `p`, then `f` on its output; consumed flags accumulate,
and a failure after consumption stays a consuming failure. -/
def pbind (p : Parser α) (f : α → Parser β) : Parser β := fun s =>
  match p s with
  | .err c => .err c
  | .ok a r c => mapConsumed c (f a r)

/-- `p.map(f)`. -/
def pmap (f : α → β) (p : Parser α) : Parser β := fun s =>
  match p s with
  | .err c => .err c
  | .ok a r c => .ok (f a) r c

/-- `choice!(p, q)` / `p.or(q)`: try `q` only when `p` failed without
consuming input. -/
def porelse (p q : Parser α) : Parser α := fun s =>
  match p s with
  | .err false => q s
  | r => r

/-- `try(p)`: convert a consuming failure into a non-consuming one. -/
def pattempt (p : Parser α) : Parser α := fun s =>
  match p s with
  | .err _ => .err false
  | r => r

/-- Consume one character satisfying the predicate. -/
def satisfy (pr : Char → Bool) : Parser Char := fun s =>
  match s with
  | [] => .err false
  | c :: cs => if pr c then .ok c cs true else .err false

/-- `token(c)`. -/
def ptoken (c : Char) : Parser Char := satisfy (fun x => x == c)

/-- `newline()`: exactly the character `'\n'`. -/
def pnewline : Parser Char := satisfy (fun x => x == '\n')

/-- `eof()`: succeed (consuming nothing) only at end of input. -/
def peof : Parser Unit := fun s =>
  match s with
  | [] => .ok () [] false
  | _ :: _ => .err false

/-- Worker for `string(lit)`: the flag records whether a character was
already consumed, so a mismatch after the first character is a consuming
failure. -/
def stringAux : List Char → Bool → Parser Unit
  | [], c, s => .ok () s c
  | l :: lit, c, s =>
    match s with
    | [] => .err c
    | x :: xs => if x = l then stringAux lit true xs else .err c

/-- `string(lit)`. -/
def pstring (lit : String) : Parser Unit := stringAux lit.toList false

/-- Fuelled worker for `many(p)`; the fuel only serves termination and any
fuel above the input length gives the real `combine` behaviour (every
repeated parser of this grammar consumes input on success). -/
def manyAux (p : Parser α) : Nat → Parser (List α)
  | 0, _ => .err false
  | fuel + 1, s =>
    match p s with
    | .err true => .err true
    | .err false => .ok [] s false
    | .ok a r c =>
      match manyAux p fuel r with
      | .err c2 => .err (c || c2)
      | .ok as r2 c2 => .ok (a :: as) r2 (c || c2)

/-- `many(p)`: zero or more repetitions; stops at a non-consuming failure,
propagates a consuming one. -/
def pmany (p : Parser α) : Parser (List α) := fun s => manyAux p (s.length + 1) s

/-- `many1(p)`. -/
def pmany1 (p : Parser α) : Parser (List α) :=
  pbind p (fun a => pmap (fun as => a :: as) (pmany p))

/-- `optional(p)`: `none` when `p` fails without consuming. -/
def poptional (p : Parser α) : Parser (Option α) :=
  porelse (pmap some p) (ppure none)

/-- `sep_by1(p, sep)`. -/
def psepBy1 (p : Parser α) (sep : Parser β) : Parser (List α) :=
  pbind p (fun a => pmap (fun as => a :: as) (pmany (pbind sep (fun _ => p))))

/-- `sep_by(p, sep)`: zero or more occurrences of `p` separated by `sep`. -/
def psepBy (p : Parser α) (sep : Parser β) : Parser (List α) :=
  porelse (psepBy1 p sep) (ppure [])

/-! ## Line primitives (src/parse_utils.rs) -/

/-- `non_newline()`: any character except `'\r'` and `'\n'`
(`none_of("\r\n")`). -/
def non_newline : Parser Char := satisfy (fun c => !(c == '\r' || c == '\n'))

/-- `eol()`: a `'\n'` or end of input. -/
def eol : Parser Unit := porelse (pmap (fun _ => ()) pnewline) peof

/-- `until_eol()`: one or more non-newline characters up to `eol()`,
returned without the terminator. -/
def until_eol : Parser String :=
  pbind (pmany1 non_newline) (fun cs => pmap (fun _ => String.mk cs) eol)

/-- `line_block()`: lines joined by `'\n'`, no trailing terminator. -/
def line_block : Parser String :=
  pmap (fun lines => String.intercalate "\n" lines) (pmany (pattempt until_eol))

/-! ## The grammar (src/parser.rs) -/

variable {C : Type}

/-- The `first_line` of `scenario_block`: keyword, one space, the
host-supplied step parser, `eol()`. -/
def step_first_line (pfx : String) (inner : Parser (Step C)) : Parser (Step C) :=
  pbind (pstring pfx) (fun _ => pbind (ptoken ' ') (fun _ =>
    pbind inner (fun st => pmap (fun _ => st) eol)))

/-- The `and_line` of `scenario_block`: `"And "`, the step parser, `eol()`. -/
def step_and_line (inner : Parser (Step C)) : Parser (Step C) :=
  pbind (pstring "And ") (fun _ => pbind inner (fun st => pmap (fun _ => st) eol))

/-- `scenario_block` of src/parser.rs: the first keyword line followed by the
`"And "` continuation lines, `first :: ands`. -/
def scenario_block (pfx : String) (inner : Parser (Step C)) : Parser (List (Step C)) :=
  pbind (step_first_line pfx inner) (fun first =>
    pmap (fun ands => first :: ands) (pmany (step_and_line inner)))

/-- Rust's `str::trim`: drop whitespace from both ends (executable model,
`String.trim` itself is not kernel-reducible). -/
def trimChars (cs : List Char) : List Char :=
  ((cs.dropWhile Char.isWhitespace).reverse.dropWhile Char.isWhitespace).reverse

/-- The scenario-name rule of `scenario`: rest of line trimmed, or an
immediate line break for no name. -/
def scenarioName : Parser (Option String) :=
  porelse (pmap (fun s => some (String.mk (trimChars s.toList))) until_eol)
    (pmap (fun _ => none) pnewline)

/-- The `steps` rule of `scenario`: three optional blocks (each defaulting to
`[]`), concatenated Given ++ When ++ Then. -/
def scenarioSteps (g w t : Parser (Step C)) : Parser (List (Step C)) :=
  pbind (pmap (fun o => o.getD []) (poptional (scenario_block "Given" g))) (fun gs =>
  pbind (pmap (fun o => o.getD []) (poptional (scenario_block "When" w))) (fun ws =>
  pmap (fun ts => gs ++ ws ++ ts)
    (pmap (fun o => o.getD []) (poptional (scenario_block "Then" t)))))

/-- `scenario` of src/parser.rs: `"<Keyword>:"`, the name rule, the steps. -/
def scenarioP (pfx : String) (g w t : Parser (Step C)) : Parser (Scenario C) :=
  pbind (pstring pfx) (fun _ => pbind (pstring ":") (fun _ =>
  pbind scenarioName (fun nm =>
    pmap (fun steps => Scenario.mk nm steps) (scenarioSteps g w t))))

/-- `blank_lines()` of `feature`: `many1(newline())`. -/
def blank_lines : Parser (List Char) := pmany1 pnewline

/-- `feature` of src/parser.rs: optional leading blank lines, the
`"Feature: "` header, the comment block, a mandatory blank-line run, an
optional Background consumed together with its trailing blank-line run, and
the `sep_by` list of Scenarios. -/
def featureP (g w t : Parser (Step C)) : Parser (Feature C) :=
  pbind (poptional blank_lines) (fun _ =>
  pbind (pstring "Feature: ") (fun _ =>
  pbind until_eol (fun nm =>
  pbind line_block (fun cm =>
  pbind blank_lines (fun _ =>
  pbind (poptional (pbind (scenarioP "Background" g w t)
      (fun sc => pmap (fun _ => TestCase.background sc) blank_lines))) (fun bg =>
  pmap (fun tcs => Feature.mk nm cm bg tcs)
    (psepBy (pmap TestCase.scenario (scenarioP "Scenario" g w t)) blank_lines)))))))

/-! ## Concrete step parsers mirroring the test fixtures of src/parser.rs:
a step is one keyword letter and a digit; evaluating it records the digit. -/

/-- Parse one digit into the sample step recording its value. -/
def numStep : Parser (Step Ctx) :=
  pmap (fun c => pushStep (c.toNat - 48)) (satisfy (fun c => c.isDigit))

/-- The sample `given` parser: `G<digit>`. -/
def givenP : Parser (Step Ctx) := pbind (ptoken 'G') (fun _ => numStep)

/-- The sample `when` parser: `W<digit>`. -/
def whenP : Parser (Step Ctx) := pbind (ptoken 'W') (fun _ => numStep)

/-- The sample `then` parser: `T<digit>`. -/
def thenP : Parser (Step Ctx) := pbind (ptoken 'T') (fun _ => numStep)

/-! ## Observation functions (steps are functions, so parse results are
compared through decidable projections and through evaluating the parsed
steps, exactly like the repository's own tests do). -/

/-- The parse failed. -/
def isErrP : PResult α → Prop
  | .err _ => True
  | .ok _ _ _ => False

/-- Number of parsed test cases, `none` on parse failure. -/
def parsedCaseCount : PResult (Feature C) → Option Nat
  | .ok f _ _ => some f.test_cases.length
  | .err _ => none

/-- The parsed scenario's name, `none` on parse failure. -/
def parsedName : PResult (Scenario C) → Option (Option String)
  | .ok sc _ _ => some sc.name
  | .err _ => none

/-- Step-block observation: number of steps and the trace of evaluating them
on the empty sample context. -/
def blockObs : PResult (List (Step Ctx)) → Option (Nat × Bool × Ctx)
  | .ok l _ _ => some (l.length, (evalSteps l []).1, (evalSteps l []).2)
  | .err _ => none

/-- Scenario observation: name plus the evaluation trace of its steps. -/
def scObs : PResult (Scenario Ctx) → Option (Option String × Bool × Ctx)
  | .ok sc _ _ => some (sc.name, (evalSteps sc.steps []).1, (evalSteps sc.steps []).2)
  | .err _ => none

/-- Feature observation: header data, background presence, case names, and
the full evaluation outcome from the sample factory context `[]`. -/
def featureObs : PResult (Feature Ctx) →
    Option (String × String × Bool × List (String × Bool × Ctx))
  | .ok f _ _ => some (f.name, f.comment, f.background.isSome,
      (Feature.eval f []).map (fun r => (r.test_case_name, r.pass, r.context)))
  | .err _ => none

/-! ## Rewrite and inversion lemmas for the combinators -/

theorem mapConsumed_false (r : PResult α) : mapConsumed false r = r := by
  cases r <;> rfl

theorem pbind_ok_arg {p : Parser α} {s : List Char} {a : α} {r : List Char} {c : Bool}
    (f : α → Parser β) (h : p s = .ok a r c) :
    pbind p f s = mapConsumed c (f a r) := by
  unfold pbind
  rw [h]

theorem pbind_err_arg {p : Parser α} {s : List Char} {c : Bool} (f : α → Parser β)
    (h : p s = .err c) : pbind p f s = .err c := by
  unfold pbind
  rw [h]

theorem pmap_ok_arg {p : Parser α} {s : List Char} {a : α} {r : List Char} {c : Bool}
    (f : α → β) (h : p s = .ok a r c) : pmap f p s = .ok (f a) r c := by
  unfold pmap
  rw [h]

theorem pmap_err_arg {p : Parser α} {s : List Char} {c : Bool} (f : α → β)
    (h : p s = .err c) : pmap f p s = .err c := by
  unfold pmap
  rw [h]

theorem porelse_ok {p q : Parser α} {s : List Char} {a : α} {r : List Char} {c : Bool}
    (h : p s = .ok a r c) : porelse p q s = .ok a r c := by
  unfold porelse
  rw [h]

theorem porelse_err_false {p q : Parser α} {s : List Char}
    (h : p s = .err false) : porelse p q s = q s := by
  unfold porelse
  rw [h]

theorem isErr_mapConsumed {r : PResult α} (c : Bool) (h : isErrP r) :
    isErrP (mapConsumed c r) := by
  cases r
  · exact h.elim
  · trivial

theorem isErr_pbind_arg {p : Parser α} {s : List Char} {c : Bool} (f : α → Parser β)
    (h : p s = .err c) : isErrP (pbind p f s) := by
  rw [pbind_err_arg f h]
  trivial

theorem isErr_pbind_fun {p : Parser α} {s : List Char} {a : α} {r : List Char} {c : Bool}
    {f : α → Parser β} (h : p s = .ok a r c) (h2 : isErrP (f a r)) :
    isErrP (pbind p f s) := by
  rw [pbind_ok_arg f h]
  exact isErr_mapConsumed c h2

theorem pbind_ok_inv {p : Parser α} {f : α → Parser β} {s : List Char} {b : β}
    {r : List Char} {c : Bool} (h : pbind p f s = .ok b r c) :
    ∃ a r1 c1 c2, p s = .ok a r1 c1 ∧ f a r1 = .ok b r c2 ∧ c = (c1 || c2) := by
  unfold pbind at h
  rcases hp : p s with ⟨a, r1, c1⟩ | c1
  · rw [hp] at h
    have h2 : mapConsumed c1 (f a r1) = .ok b r c := h
    rcases hf : f a r1 with ⟨b2, r2, c2⟩ | c2 <;> rw [hf] at h2 <;>
      simp only [mapConsumed] at h2
    · obtain ⟨hb, hr, hc⟩ := PResult.ok.inj h2
      subst hb hr
      exact ⟨a, r1, c1, c2, rfl, hf, hc.symm⟩
    · cases h2
  · rw [hp] at h
    cases h

theorem pmap_ok_inv {p : Parser α} {f : α → β} {s : List Char} {b : β}
    {r : List Char} {c : Bool} (h : pmap f p s = .ok b r c) :
    ∃ a, p s = .ok a r c ∧ b = f a := by
  unfold pmap at h
  rcases hp : p s with ⟨a, r1, c1⟩ | c1 <;> rw [hp] at h
  · have h2 : PResult.ok (f a) r1 c1 = .ok b r c := h
    obtain ⟨hb, hr, hc⟩ := PResult.ok.inj h2
    subst hr hc
    exact ⟨a, rfl, hb.symm⟩
  · cases h

/-! ## Lemmas about `string`, `many` and the line primitives -/

/-- Decidable "is a literal a prefix of the input". -/
def isPfx : List Char → List Char → Bool
  | [], _ => true
  | _ :: _, [] => false
  | l :: lit, x :: xs => if x = l then isPfx lit xs else false

/-- No `'\r'` and no `'\n'` occurs in the list. -/
def crlfFree (l : List Char) : Prop := ∀ c ∈ l, c ≠ '\r' ∧ c ≠ '\n'

instance (l : List Char) : Decidable (crlfFree l) :=
  List.decidableBAll (fun c => c ≠ '\r' ∧ c ≠ '\n') l

theorem stringAux_pfx : ∀ (lit : List Char) (b : Bool) (rest : List Char),
    stringAux lit b (lit ++ rest) = .ok () rest (b || !lit.isEmpty)
  | [], b, rest => by simp [stringAux]
  | l :: lit, b, rest => by
    show (if l = l then stringAux lit true (lit ++ rest) else .err b) = _
    rw [if_pos rfl, stringAux_pfx lit true rest]
    simp

theorem stringAux_not_pfx : ∀ (lit s : List Char) (b : Bool), isPfx lit s = false →
    ∃ c, stringAux lit b s = .err c
  | [], s, b, h => by simp [isPfx] at h
  | l :: lit, [], b, _ => ⟨b, rfl⟩
  | l :: lit, x :: xs, b, h => by
    by_cases hx : x = l
    · rw [isPfx, if_pos hx] at h
      obtain ⟨c, hc⟩ := stringAux_not_pfx lit xs true h
      exact ⟨c, by rw [stringAux, if_pos hx, hc]⟩
    · exact ⟨b, by rw [stringAux, if_neg hx]⟩

theorem isPfx_decomp : ∀ (lit s : List Char), isPfx lit s = true →
    ∃ rest, s = lit ++ rest
  | [], s, _ => ⟨s, rfl⟩
  | l :: lit, [], h => by simp [isPfx] at h
  | l :: lit, x :: xs, h => by
    by_cases hx : x = l
    · rw [isPfx, if_pos hx] at h
      obtain ⟨rest, hr⟩ := isPfx_decomp lit xs h
      exact ⟨rest, by rw [hx, hr]; rfl⟩
    · rw [isPfx, if_neg hx] at h
      cases h

theorem isPfx_append_mem : ∀ (lit xs : List Char) (x : Char) (ys : List Char),
    isPfx lit (xs ++ x :: ys) = true → lit.length ≤ xs.length ∨ x ∈ lit
  | [], xs, x, ys, _ => Or.inl (Nat.zero_le _)
  | l :: lit, [], x, ys, h => by
    by_cases hx : x = l
    · exact Or.inr (by rw [hx]; exact List.mem_cons_self l lit)
    · rw [show ([] : List Char) ++ x :: ys = x :: ys from rfl, isPfx, if_neg hx] at h
      cases h
  | l :: lit, x0 :: xs, x, ys, h => by
    rw [show (x0 :: xs) ++ x :: ys = x0 :: (xs ++ x :: ys) from rfl, isPfx] at h
    by_cases hx : x0 = l
    · rw [if_pos hx] at h
      rcases isPfx_append_mem lit xs x ys h with h2 | h2
      · exact Or.inl (Nat.succ_le_succ h2)
      · exact Or.inr (List.mem_cons_of_mem l h2)
    · rw [if_neg hx] at h
      cases h

theorem isPfx_append_left : ∀ (lit xs t : List Char), lit.length ≤ xs.length →
    isPfx lit (xs ++ t) = true → isPfx lit xs = true
  | [], _, _, _, _ => rfl
  | l :: lit, [], t, hle, _ => by simp at hle
  | l :: lit, x0 :: xs, t, hle, h => by
    rw [show (x0 :: xs) ++ t = x0 :: (xs ++ t) from rfl, isPfx] at h
    rw [isPfx]
    by_cases hx : x0 = l
    · rw [if_pos hx] at h ⊢
      exact isPfx_append_left lit xs t (Nat.le_of_succ_le_succ hle) h
    · rw [if_neg hx] at h
      cases h

/-- Input shapes at which `non_newline` fails: end of input or a line
terminator character. -/
def nnStops : List Char → Prop
  | [] => True
  | c :: _ => c = '\r' ∨ c = '\n'

theorem non_newline_ok {c : Char} (cs : List Char) (h1 : c ≠ '\r') (h2 : c ≠ '\n') :
    non_newline (c :: cs) = .ok c cs true := by
  simp [non_newline, satisfy, h1, h2]

theorem non_newline_stop {s : List Char} (h : nnStops s) : non_newline s = .err false := by
  cases s with
  | nil => rfl
  | cons c cs =>
    rcases h with h | h <;> (subst h; rfl)

theorem manyAux_step_ok {p : Parser α} {s r : List Char} {a : α} {c : Bool} (fuel : Nat)
    (h : p s = .ok a r c) :
    manyAux p (fuel + 1) s =
      (match manyAux p fuel r with
        | .err c2 => .err (c || c2)
        | .ok as r2 c2 => .ok (a :: as) r2 (c || c2) : PResult (List α)) := by
  conv_lhs => unfold manyAux
  rw [h]

theorem manyAux_step_err_false {p : Parser α} {s : List Char} (fuel : Nat)
    (h : p s = .err false) : manyAux p (fuel + 1) s = .ok [] s false := by
  conv_lhs => unfold manyAux
  rw [h]

theorem manyAux_nonNewline : ∀ (line : List Char) (fuel : Nat) (rest : List Char),
    line.length < fuel → crlfFree line → nnStops rest →
    manyAux non_newline fuel (line ++ rest) = .ok line rest (!line.isEmpty)
  | [], 0, rest, hf, _, _ => absurd hf (by simp)
  | [], fuel + 1, rest, _, _, hr => by
    show manyAux non_newline (fuel + 1) rest = _
    rw [manyAux_step_err_false fuel (non_newline_stop hr)]
    rfl
  | c :: cs, 0, rest, hf, _, _ => absurd hf (by simp)
  | c :: cs, fuel + 1, rest, hf, hl, hr => by
    have hc := hl c (List.mem_cons_self c cs)
    have hcs : crlfFree cs := fun x hx => hl x (List.mem_cons_of_mem c hx)
    show manyAux non_newline (fuel + 1) (c :: (cs ++ rest)) = _
    rw [manyAux_step_ok fuel (non_newline_ok (cs ++ rest) hc.1 hc.2),
      manyAux_nonNewline cs fuel rest (Nat.lt_of_succ_lt_succ hf) hcs hr]
    cases cs <;> rfl

theorem pmany_nonNewline (line rest : List Char) (hl : crlfFree line) (hr : nnStops rest) :
    pmany non_newline (line ++ rest) = .ok line rest (!line.isEmpty) := by
  unfold pmany
  exact manyAux_nonNewline line ((line ++ rest).length + 1) rest
    (by simp [List.length_append]; omega) hl hr

theorem pmany1_nonNewline (line rest : List Char) (hne : line ≠ []) (hl : crlfFree line)
    (hr : nnStops rest) : pmany1 non_newline (line ++ rest) = .ok line rest true := by
  cases line with
  | nil => exact absurd rfl hne
  | cons c cs =>
    have hc := hl c (List.mem_cons_self c cs)
    have hcs : crlfFree cs := fun x hx => hl x (List.mem_cons_of_mem c hx)
    have ha : (c :: cs) ++ rest = c :: (cs ++ rest) := rfl
    rw [ha]
    unfold pmany1
    rw [pbind_ok_arg _ (non_newline_ok (cs ++ rest) hc.1 hc.2),
      pmap_ok_arg _ (pmany_nonNewline cs rest hcs hr)]
    cases cs <;> rfl

/-! ## Behaviour of `eol`, `until_eol` and the scenario-name rule -/

theorem eol_nl (rest : List Char) : eol ('\n' :: rest) = .ok () rest true := rfl

theorem eol_eof : eol [] = .ok () [] false := rfl

theorem eol_cr (rest : List Char) : eol ('\r' :: rest) = .err false := rfl

theorem until_eol_nl (line rest : List Char) (hne : line ≠ []) (hl : crlfFree line) :
    until_eol (line ++ '\n' :: rest) = .ok (String.mk line) rest true := by
  unfold until_eol
  rw [pbind_ok_arg _ (pmany1_nonNewline line ('\n' :: rest) hne hl (Or.inr rfl))]
  rfl

theorem until_eol_eof (line : List Char) (hne : line ≠ []) (hl : crlfFree line) :
    until_eol line = .ok (String.mk line) [] true := by
  unfold until_eol
  have hp : pmany1 non_newline line = .ok line [] true := by
    have h0 : pmany1 non_newline line = pmany1 non_newline (line ++ []) := by simp
    rw [h0]
    exact pmany1_nonNewline line [] hne hl trivial
  rw [pbind_ok_arg _ hp]
  rfl

theorem until_eol_cr (line rest : List Char) (hl : crlfFree line) :
    until_eol (line ++ '\r' :: rest) = .err (!line.isEmpty) := by
  cases line with
  | nil => rfl
  | cons c cs =>
    unfold until_eol
    rw [pbind_ok_arg _
      (pmany1_nonNewline (c :: cs) ('\r' :: rest) (by simp) hl (Or.inl rfl))]
    rfl

theorem scenarioName_noname (rest : List Char) : scenarioName ('\n' :: rest) = .ok none rest true := rfl

theorem scenarioName_named (nm rest : List Char) (hne : nm ≠ []) (hl : crlfFree nm) :
    scenarioName (nm ++ '\n' :: rest) = .ok (some (String.mk (trimChars nm))) rest true := by
  unfold scenarioName
  rw [porelse_ok (pmap_ok_arg _ (until_eol_nl nm rest hne hl))]
  rfl

/-! ## Behaviour of `blank_lines` and its `optional` wrapper -/

theorem pnewline_not_nl {c : Char} (cs : List Char) (h : c ≠ '\n') :
    pnewline (c :: cs) = .err false := by
  simp [pnewline, satisfy, h]

theorem manyAux_newline : ∀ (fuel : Nat) (s : List Char), s.length < fuel →
    manyAux pnewline fuel s =
      .ok (s.takeWhile (fun c => c == '\n')) (s.dropWhile (fun c => c == '\n'))
        (!(s.takeWhile (fun c => c == '\n')).isEmpty)
  | 0, s, hf => absurd hf (by simp)
  | fuel + 1, [], _ => by
    rw [manyAux_step_err_false fuel rfl]
    rfl
  | fuel + 1, c :: cs, hf => by
    by_cases hc : c = '\n'
    · subst hc
      rw [manyAux_step_ok fuel (show pnewline ('\n' :: cs) = .ok '\n' cs true from rfl),
        manyAux_newline fuel cs (Nat.lt_of_succ_lt_succ hf)]
      simp [List.takeWhile, List.dropWhile]
    · rw [manyAux_step_err_false fuel (pnewline_not_nl cs hc)]
      have hb : (c == '\n') = false := by simp [hc]
      simp [List.takeWhile, List.dropWhile, hb]

theorem poptional_blank (s : List Char) :
    ∃ o cf, poptional blank_lines s =
      .ok o (s.dropWhile (fun c => c == '\n')) cf := by
  cases s with
  | nil => exact ⟨none, false, rfl⟩
  | cons c cs =>
    by_cases hc : c = '\n'
    · subst hc
      have hm : pmany pnewline cs =
          .ok (cs.takeWhile (fun c => c == '\n')) (cs.dropWhile (fun c => c == '\n'))
            (!(cs.takeWhile (fun c => c == '\n')).isEmpty) := by
        unfold pmany
        exact manyAux_newline (cs.length + 1) cs (by omega)
      have hbl : blank_lines ('\n' :: cs) =
          .ok ('\n' :: cs.takeWhile (fun c => c == '\n'))
            (cs.dropWhile (fun c => c == '\n')) true := by
        unfold blank_lines pmany1
        rw [pbind_ok_arg _ (show pnewline ('\n' :: cs) = .ok '\n' cs true from rfl),
          pmap_ok_arg _ hm]
        rfl
      refine ⟨some ('\n' :: cs.takeWhile (fun c => c == '\n')), true, ?_⟩
      unfold poptional
      rw [porelse_ok (pmap_ok_arg _ hbl)]
      simp [List.dropWhile]
    · have hb : (c == '\n') = false := by simp [hc]
      have hbl : blank_lines (c :: cs) = .err false := by
        unfold blank_lines pmany1
        rw [pbind_err_arg _ (pnewline_not_nl cs hc)]
      refine ⟨none, false, ?_⟩
      unfold poptional
      rw [porelse_err_false (pmap_err_arg _ hbl)]
      simp [List.dropWhile, hb]
      rfl

theorem poptional_blank_not_nl (s : List Char)
    (h : match s with | [] => True | c :: _ => c ≠ '\n') :
    poptional blank_lines s = .ok none s false := by
  cases s with
  | nil => rfl
  | cons c cs =>
    have hbl : blank_lines (c :: cs) = .err false := by
      unfold blank_lines pmany1
      rw [pbind_err_arg _ (pnewline_not_nl cs h)]
    unfold poptional
    rw [porelse_err_false (pmap_err_arg _ hbl)]
    rfl

/-! ## Structural inversion of the grammar rules -/

theorem scenario_block_inv {C : Type} {pfx : String} {inner : Parser (Step C)}
    {s : List Char} {l : List (Step C)} {rest : List Char} {c : Bool}
    (h : scenario_block pfx inner s = .ok l rest c) :
    ∃ first s1 c1 ands c2,
      step_first_line pfx inner s = .ok first s1 c1 ∧
      pmany (step_and_line inner) s1 = .ok ands rest c2 ∧
      l = first :: ands := by
  unfold scenario_block at h
  obtain ⟨first, s1, c1, c2, h1, h2, _⟩ := pbind_ok_inv h
  obtain ⟨ands, h3, h4⟩ := pmap_ok_inv h2
  exact ⟨first, s1, c1, ands, c2, h1, h3, h4⟩

theorem scenarioSteps_inv {C : Type} {g w t : Parser (Step C)} {s : List Char}
    {l : List (Step C)} {rest : List Char} {c : Bool}
    (h : scenarioSteps g w t s = .ok l rest c) :
    ∃ gs s1 c1 ws s2 c2 ts c3,
      pmap (fun o => o.getD []) (poptional (scenario_block "Given" g)) s = .ok gs s1 c1 ∧
      pmap (fun o => o.getD []) (poptional (scenario_block "When" w)) s1 = .ok ws s2 c2 ∧
      pmap (fun o => o.getD []) (poptional (scenario_block "Then" t)) s2 = .ok ts rest c3 ∧
      l = gs ++ ws ++ ts := by
  unfold scenarioSteps at h
  obtain ⟨gs, s1, c1, c12, h1, h2, _⟩ := pbind_ok_inv h
  obtain ⟨ws, s2, c2, c23, h3, h4, _⟩ := pbind_ok_inv h2
  obtain ⟨ts, h5, h6⟩ := pmap_ok_inv h4
  exact ⟨gs, s1, c1, ws, s2, c2, ts, c23, h1, h3, h5, h6⟩

theorem scenarioP_steps_inv {C : Type} {pfx : String} {g w t : Parser (Step C)}
    {s : List Char} {sc : Scenario C} {rest : List Char} {c : Bool}
    (h : scenarioP pfx g w t s = .ok sc rest c) :
    ∃ s0 c0, scenarioSteps g w t s0 = .ok sc.steps rest c0 := by
  unfold scenarioP at h
  obtain ⟨_, s1, c1, c2, h1, h2, _⟩ := pbind_ok_inv h
  obtain ⟨_, s2, c3, c4, h3, h4, _⟩ := pbind_ok_inv h2
  obtain ⟨nm, s3, c5, c6, h5, h6, _⟩ := pbind_ok_inv h4
  obtain ⟨steps, h7, h8⟩ := pmap_ok_inv h6
  refine ⟨s3, c6, ?_⟩
  rw [h8]
  exact h7

/-- A feature text whose first line ends in `"\r\n"` fails to parse, for any
step parsers: either the header literal does not match, or the name's
`until_eol` stops at `'\r'` and neither `newline` nor `eof` accepts it. -/
theorem feature_crlf_err (C : Type) (g w t : Parser (Step C)) (preLine rest : List Char)
    (hl : crlfFree preLine) :
    isErrP (featureP g w t (preLine ++ '\r' :: '\n' :: rest)) := by
  have hhead : (match preLine ++ '\r' :: '\n' :: rest with
      | [] => True | c :: _ => c ≠ '\n') := by
    cases preLine with
    | nil => exact (by decide : ('\r' : Char) ≠ '\n')
    | cons c cs => exact (hl c (List.mem_cons_self c cs)).2
  have hopt := poptional_blank_not_nl _ hhead
  unfold featureP
  apply isErr_pbind_fun hopt
  by_cases hp : isPfx ("Feature: ").toList (preLine ++ '\r' :: '\n' :: rest) = true
  · rcases isPfx_append_mem ("Feature: ").toList preLine '\r' ('\n' :: rest) hp with hle | hmem
    · have hpl : isPfx ("Feature: ").toList preLine = true :=
        isPfx_append_left _ preLine _ hle hp
      obtain ⟨nm, hnm⟩ := isPfx_decomp _ preLine hpl
      have hnmf : crlfFree nm := fun x hx => hl x (by rw [hnm]; exact List.mem_append_right _ hx)
      subst hnm
      have hassoc : (("Feature: ").toList ++ nm) ++ '\r' :: '\n' :: rest
          = ("Feature: ").toList ++ (nm ++ '\r' :: '\n' :: rest) := by simp
      rw [hassoc]
      have hstr : pstring "Feature: " (("Feature: ").toList ++ (nm ++ '\r' :: '\n' :: rest))
          = .ok () (nm ++ '\r' :: '\n' :: rest) (false || !(("Feature: ").toList).isEmpty) :=
        stringAux_pfx _ false _
      apply isErr_pbind_fun hstr
      exact isErr_pbind_arg _ (until_eol_cr nm ('\n' :: rest) hnmf)
    · exact absurd hmem (by decide)
  · simp only [Bool.not_eq_true] at hp
    obtain ⟨cf, he⟩ := stringAux_not_pfx _ _ false hp
    exact isErr_pbind_arg _ he

/-- A text whose first non-blank content does not start with the literal
`"Feature: "` fails to parse, for any step parsers. -/
theorem feature_header_err (C : Type) (g w t : Parser (Step C)) (s : List Char)
    (hp : isPfx ("Feature: ").toList (s.dropWhile (fun c => c == '\n')) = false) :
    isErrP (featureP g w t s) := by
  obtain ⟨o, cf, hopt⟩ := poptional_blank s
  unfold featureP
  apply isErr_pbind_fun hopt
  obtain ⟨c2, he⟩ := stringAux_not_pfx _ _ false hp
  exact isErr_pbind_arg _ he

/-! ## Claim theorems about the grammar -/

/-- C4: (1) every successful `scenario_block` parse is the first keyword
line's step followed by the `"And "`-continuation steps; (2) every successful
steps parse is exactly the Given-block steps, then the When-block steps, then
the Then-block steps, in that fixed order; (3) a Given block of one keyword
line plus two `"And "` lines yields exactly 3 steps in source order; (4) a
scenario with 2 Given, 1 When and 2 Then steps evaluates them in exactly
that concatenated order. -/
theorem C4_block_concatenation :
    (∀ (C : Type) (pfx : String) (inner : Parser (Step C)) (s : List Char)
        (l : List (Step C)) (rest : List Char) (c : Bool),
      scenario_block pfx inner s = .ok l rest c →
      ∃ first s1 c1 ands c2,
        step_first_line pfx inner s = .ok first s1 c1 ∧
        pmany (step_and_line inner) s1 = .ok ands rest c2 ∧
        l = first :: ands) ∧
    (∀ (C : Type) (g w t : Parser (Step C)) (s : List Char)
        (l : List (Step C)) (rest : List Char) (c : Bool),
      scenarioSteps g w t s = .ok l rest c →
      ∃ gs s1 c1 ws s2 c2 ts c3,
        pmap (fun o => o.getD []) (poptional (scenario_block "Given" g)) s = .ok gs s1 c1 ∧
        pmap (fun o => o.getD []) (poptional (scenario_block "When" w)) s1 = .ok ws s2 c2 ∧
        pmap (fun o => o.getD []) (poptional (scenario_block "Then" t)) s2 = .ok ts rest c3 ∧
        l = gs ++ ws ++ ts) ∧
    blockObs (scenario_block "Given" givenP (("Given G1\nAnd G2\nAnd G3\n").toList)) =
      some (3, true, [1, 2, 3]) ∧
    scObs (scenarioP "Scenario" givenP whenP thenP
        (("Scenario: S\nGiven G1\nAnd G2\nWhen W3\nThen T4\nAnd T5\n").toList)) =
      some (some "S", true, [1, 2, 3, 4, 5]) := by
  refine ⟨?_, ?_, rfl, rfl⟩
  · intro C pfx inner s l rest c h
    exact scenario_block_inv h
  · intro C g w t s l rest c h
    exact scenarioSteps_inv h

/-- C4 witness: the 3-step Given block instantiates the block-structure
inversion at a concrete input. -/
theorem C4_block_concatenation_witness :
    ∃ first s1 c1 ands c2,
      step_first_line "Given" givenP (("Given G1\nAnd G2\nAnd G3\n").toList) = .ok first s1 c1 ∧
      pmany (step_and_line givenP) s1 = .ok ands [] c2 ∧
      [pushStep 1, pushStep 2, pushStep 3] = first :: ands :=
  C4_block_concatenation.1 Ctx "Given" givenP (("Given G1\nAnd G2\nAnd G3\n").toList)
    [pushStep 1, pushStep 2, pushStep 3] [] true rfl

/-- C6 counterexample: a text with the Feature header, a comment block and
the mandatory separator but zero `"Scenario:"` sections parses successfully
(to a Feature with an empty case list), so the parse does not fail there. -/
theorem C6_counterexample :
    parsedCaseCount (featureP givenP whenP thenP (("Feature: f\nc\n\n").toList)) = some 0 := rfl

/-- C6 (amended): the Feature grammar accepts zero or more Scenario nodes
(`sep_by`): header + comment + separator with no Scenario section parses to a
Feature with an empty scenario list; a missing required literal (a first
non-blank line not starting with `"Feature: "`) fails for every input and all
step parsers, and a text lacking the mandatory blank-line separator after the
comment block fails. -/
theorem C6_zero_or_more_scenarios :
    featureObs (featureP givenP whenP thenP (("Feature: f\nc\n\n").toList)) =
      some ("f", "c", false, []) ∧
    (∀ (C : Type) (g w t : Parser (Step C)) (s : List Char),
      isPfx ("Feature: ").toList (s.dropWhile (fun c => c == '\n')) = false →
      isErrP (featureP g w t s)) ∧
    isErrP (featureP givenP whenP thenP (("Feature: f\nScenario: A\nGiven G1\n").toList)) := by
  refine ⟨rfl, ?_, ?_⟩
  · intro C g w t s hp
    exact feature_header_err C g w t s hp
  · exact trivial

/-- C6 witness: a text whose first line is not a Feature header fails. -/
theorem C6_zero_or_more_scenarios_witness :
    isErrP (featureP givenP whenP thenP (("Flop\nScenario: A\n").toList)) :=
  C6_zero_or_more_scenarios.2.1 Ctx givenP whenP thenP (("Flop\nScenario: A\n").toList)
    (by decide)

/-- C8: (1) `"Scenario:\n"` parses to a scenario with no name; (2) a
no-name scenario's result reports the empty-string case name, for any steps
and context; (3) the name rule takes an immediate line break as "no name";
(4) the name rule trims the rest of the line when text follows the colon;
(5) a concrete header with surrounding whitespace yields the trimmed name. -/
theorem C8_unnamed_scenario :
    parsedName (scenarioP "Scenario" givenP whenP thenP (("Scenario:\n").toList)) =
      some none ∧
    (∀ (C : Type) (steps : List (Step C)) (ctx : C),
      (Scenario.eval ⟨none, steps⟩ ctx).test_case_name = "") ∧
    (∀ rest : List Char, scenarioName ('\n' :: rest) = .ok none rest true) ∧
    (∀ nm rest : List Char, nm ≠ [] → crlfFree nm →
      scenarioName (nm ++ '\n' :: rest) = .ok (some (String.mk (trimChars nm))) rest true) ∧
    scObs (scenarioP "Scenario" givenP whenP thenP (("Scenario:  foo  \nGiven G1\n").toList)) =
      some (some "foo", true, [1]) := by
  refine ⟨rfl, ?_, ?_, ?_, rfl⟩
  · intro C steps ctx
    rw [scenario_eval_eq]
    rfl
  · intro rest
    exact scenarioName_noname rest
  · intro nm rest hne hl
    exact scenarioName_named nm rest hne hl

/-- C8 witness: the name rule applied to `"  foo  \nG"` yields the trimmed
name `"foo"` and leaves `"G"` unconsumed. -/
theorem C8_unnamed_scenario_witness :
    scenarioName (("  foo  ").toList ++ '\n' :: ("G").toList) =
      .ok (some (String.mk (trimChars (("  foo  ").toList)))) (("G").toList) true :=
  C8_unnamed_scenario.2.2.2.1 (("  foo  ").toList) (("G").toList) (by decide) (by decide)

/-- C9: `'\r'` is rejected by `non_newline`, by `newline` and by `eol`, and a
feature text whose first line is terminated by `"\r\n"` (the first line of
any CRLF-terminated text) fails to parse for every choice of step parsers,
yielding no Feature value. -/
theorem C9_crlf_rejected :
    (∀ rest : List Char, non_newline ('\r' :: rest) = .err false) ∧
    (∀ rest : List Char, pnewline ('\r' :: rest) = .err false) ∧
    (∀ rest : List Char, eol ('\r' :: rest) = .err false) ∧
    (∀ (C : Type) (g w t : Parser (Step C)) (preLine rest : List Char),
      crlfFree preLine →
      isErrP (featureP g w t (preLine ++ '\r' :: '\n' :: rest))) := by
  refine ⟨fun _ => rfl, fun _ => rfl, fun _ => rfl, ?_⟩
  intro C g w t preLine rest hl
  exact feature_crlf_err C g w t preLine rest hl

/-- C9 witness: a concrete CRLF-terminated feature text fails to parse. -/
theorem C9_crlf_rejected_witness :
    isErrP (featureP givenP whenP thenP
      (("Feature: f").toList ++ '\r' :: '\n' :: ("Given G1\r\n").toList)) :=
  C9_crlf_rejected.2.2.2 Ctx givenP whenP thenP (("Feature: f").toList)
    (("Given G1\r\n").toList) (by decide)

/-- C10 counterexample: the feature text `"Feature: f\nx\n\nScenario:"`,
whose final line ends at end of input with no trailing `'\n'`, fails to
parse, while the same text with the trailing `'\n'` parses to one scenario —
so parsing such texts does not always succeed with the same AST. -/
theorem C10_counterexample :
    parsedCaseCount (featureP givenP whenP thenP (("Feature: f\nx\n\nScenario:").toList)) =
      none ∧
    parsedCaseCount (featureP givenP whenP thenP (("Feature: f\nx\n\nScenario:\n").toList)) =
      some 1 := ⟨rfl, rfl⟩

/-- C10 (amended): end of input is accepted as a line terminator by `eol`
and by `until_eol` — a nonempty final line parses identically with or
without a trailing `'\n'`, and a feature text ending in a step line parses
to the same Feature either way; but a feature text whose final `'\n'` must
be matched by `newline()` itself (an unnamed `"Scenario:"` header as final
line) parses only with the trailing `'\n'`. -/
theorem C10_eof_line_terminator :
    (∀ line : List Char, line ≠ [] → crlfFree line →
      until_eol line = .ok (String.mk line) [] true ∧
      until_eol (line ++ ['\n']) = .ok (String.mk line) [] true) ∧
    eol [] = .ok () [] false ∧
    featureObs (featureP givenP whenP thenP
        (("Feature: f\nx\n\nScenario: A\nGiven G1\nThen T2").toList)) =
      featureObs (featureP givenP whenP thenP
        (("Feature: f\nx\n\nScenario: A\nGiven G1\nThen T2\n").toList)) ∧
    featureObs (featureP givenP whenP thenP
        (("Feature: f\nx\n\nScenario: A\nGiven G1\nThen T2").toList)) =
      some ("f", "x", false, [("A", true, [1, 2])]) := by
  refine ⟨?_, rfl, rfl, rfl⟩
  intro line hne hl
  exact ⟨until_eol_eof line hne hl, until_eol_nl line [] hne hl⟩

/-- C10 witness: the final line `"Then T2"` parses identically with and
without the trailing newline. -/
theorem C10_eof_line_terminator_witness :
    until_eol (("Then T2").toList) = .ok (String.mk (("Then T2").toList)) [] true ∧
    until_eol (("Then T2").toList ++ ['\n']) = .ok (String.mk (("Then T2").toList)) [] true :=
  C10_eof_line_terminator.1 (("Then T2").toList) (by decide) (by decide)

end Rherkin
